import Mathlib

set_option maxRecDepth 8000

/-!
Verification of the blockchain-lab teaching repository's core components:
the SHA-256 based proof-of-work simulator (`mining_tools/pow_simulator.py`),
the Merkle tree calculator (`crypto_tools/merkle_tree.py`), the
mini-blockchain with tamper detection (`crypto_tools/mini_blockchain.py`)
and the difficulty adjustment predictor (`mining_tools/difficulty.py`).

The Python code is embedded shallowly: Python `int` becomes `Int` (or `Nat`
where the value is provably non-negative), Python `float` arithmetic in the
difficulty predictor becomes exact rational arithmetic over `ℚ`, Python
strings become Lean `String` (both are sequences of unicode code points),
and `hashlib.sha256(s.encode('utf-8')).hexdigest()` is implemented in full
below (UTF-8 encoding, padding, message schedule, compression, hex digest),
validated against the standard test vectors.
-/

namespace BlockchainLab

/-- Mask constant: 2^32, the modulus of all 32-bit arithmetic in SHA-256. -/
def M32 : Nat := 4294967296

/-- Right rotation of a 32-bit word by `n` bits. -/
def rotr (n x : Nat) : Nat := ((x >>> n) ||| (x <<< (32 - n))) % M32

/-- SHA-256 choice function. -/
def ch (e f g : Nat) : Nat := (e &&& f) ^^^ ((e ^^^ 4294967295) &&& g)

/-- SHA-256 majority function. -/
def maj (a b c : Nat) : Nat := (a &&& b) ^^^ (a &&& c) ^^^ (b &&& c)

/-- SHA-256 big sigma 0. -/
def bsig0 (x : Nat) : Nat := rotr 2 x ^^^ rotr 13 x ^^^ rotr 22 x

/-- SHA-256 big sigma 1. -/
def bsig1 (x : Nat) : Nat := rotr 6 x ^^^ rotr 11 x ^^^ rotr 25 x

/-- SHA-256 small sigma 0. -/
def ssig0 (x : Nat) : Nat := rotr 7 x ^^^ rotr 18 x ^^^ (x >>> 3)

/-- SHA-256 small sigma 1. -/
def ssig1 (x : Nat) : Nat := rotr 17 x ^^^ rotr 19 x ^^^ (x >>> 10)

/-- SHA-256 round constants (fractional parts of cube roots of the first
64 primes; the FIPS 180-4 table, written in decimal). -/
def K256 : List Nat :=
  [1116352408, 1899447441, 3049323471, 3921009573, 961987163, 1508970993, 2453635748,
   2870763221, 3624381080, 310598401, 607225278, 1426881987, 1925078388, 2162078206,
   2614888103, 3248222580, 3835390401, 4022224774, 264347078, 604807628, 770255983, 1249150122,
   1555081692, 1996064986, 2554220882, 2821834349, 2952996808, 3210313671, 3336571891,
   3584528711, 113926993, 338241895, 666307205, 773529912, 1294757372, 1396182291, 1695183700,
   1986661051, 2177026350, 2456956037, 2730485921, 2820302411, 3259730800, 3345764771,
   3516065817, 3600352804, 4094571909, 275423344, 430227734, 506948616, 659060556, 883997877,
   958139571, 1322822218, 1537002063, 1747873779, 1955562222, 2024104815, 2227730452,
   2361852424, 2428436474, 2756734187, 3204031479, 3329325298]

/-- The eight working variables of the SHA-256 compression function. -/
structure Sha256State where
  a : Nat
  b : Nat
  c : Nat
  d : Nat
  e : Nat
  f : Nat
  g : Nat
  h : Nat
deriving DecidableEq

/-- SHA-256 initial hash value (fractional parts of square roots of the
first 8 primes; the FIPS 180-4 values, written in decimal). -/
def IV256 : Sha256State :=
  ⟨1779033703, 3144134277, 1013904242, 2773480762, 1359893119, 2600822924, 528734635, 1541459225⟩

/-- Big-endian byte serialisation of `x` into `n` bytes. -/
def beBytes : Nat → Nat → List Nat
  | 0, _ => []
  | n + 1, x => ((x >>> (8 * n)) % 256) :: beBytes n x

/-- SHA-256 padding: append `0x80`, zero bytes up to 56 mod 64, then the
bit length as an 8-byte big-endian integer. -/
def padMsg (msg : List Nat) : List Nat :=
  let len := msg.length
  let zeros := (119 - len % 64) % 64
  msg ++ (0x80 :: List.replicate zeros 0) ++ beBytes 8 (len * 8)

/-- Split a byte list into 64-byte blocks; the fuel argument (instantiated
with the list length, an upper bound on the number of blocks) makes the
recursion structural so that the kernel can evaluate it. -/
def toBlocksFuel : Nat → List Nat → List (List Nat)
  | 0, _ => []
  | _, [] => []
  | fuel + 1, x :: xs => (x :: xs).take 64 :: toBlocksFuel fuel ((x :: xs).drop 64)

/-- Split a byte list into 64-byte blocks. -/
def toBlocks (l : List Nat) : List (List Nat) := toBlocksFuel l.length l

/-- Combine bytes into big-endian 32-bit words, four at a time. -/
def toWords : List Nat → List Nat
  | b0 :: b1 :: b2 :: b3 :: rest => (((b0 * 256 + b1) * 256 + b2) * 256 + b3) :: toWords rest
  | _ => []

/-- Append one more word of the SHA-256 message schedule. -/
def nextWord (ws : List Nat) : Nat :=
  let n := ws.length
  (ssig1 (ws.getD (n - 2) 0) + ws.getD (n - 7) 0 +
   ssig0 (ws.getD (n - 15) 0) + ws.getD (n - 16) 0) % M32

/-- Extend the 16-word schedule by `r` further words. -/
def extendSchedule (ws : List Nat) : Nat → List Nat
  | 0 => ws
  | r + 1 => extendSchedule (ws ++ [nextWord ws]) r

/-- One round of the SHA-256 compression function with round constant `k`
and schedule word `w`. -/
def compressStep (st : Sha256State) (kw : Nat × Nat) : Sha256State :=
  let t1 := (st.h + bsig1 st.e + ch st.e st.f st.g + kw.1 + kw.2) % M32
  let t2 := (bsig0 st.a + maj st.a st.b st.c) % M32
  ⟨(t1 + t2) % M32, st.a, st.b, st.c, (st.d + t1) % M32, st.e, st.f, st.g⟩

/-- Compress one 64-byte block into the running state. -/
def compressBlock (st : Sha256State) (block : List Nat) : Sha256State :=
  let ws := extendSchedule (toWords block) 48
  let r := (K256.zip ws).foldl compressStep st
  ⟨(st.a + r.a) % M32, (st.b + r.b) % M32, (st.c + r.c) % M32, (st.d + r.d) % M32,
   (st.e + r.e) % M32, (st.f + r.f) % M32, (st.g + r.g) % M32, (st.h + r.h) % M32⟩

/-- SHA-256 of a byte list, as the 32-byte digest. -/
def sha256Bytes (msg : List Nat) : List Nat :=
  let st := (toBlocks (padMsg msg)).foldl compressBlock IV256
  beBytes 4 st.a ++ beBytes 4 st.b ++ beBytes 4 st.c ++ beBytes 4 st.d ++
  beBytes 4 st.e ++ beBytes 4 st.f ++ beBytes 4 st.g ++ beBytes 4 st.h

/-- Lowercase hexadecimal digit for a value below 16. -/
def hexDigit (n : Nat) : Char :=
  if n < 10 then Char.ofNat (48 + n) else Char.ofNat (87 + n)

/-- Lowercase hexadecimal rendering of a byte list. -/
def bytesToHex (l : List Nat) : String :=
  String.mk (l.flatMap (fun b => [hexDigit (b / 16), hexDigit (b % 16)]))

/-- UTF-8 encoding of a single unicode code point. -/
def utf8Char (c : Char) : List Nat :=
  let n := c.toNat
  if n < 0x80 then [n]
  else if n < 0x800 then [0xC0 ||| (n >>> 6), 0x80 ||| (n &&& 0x3F)]
  else if n < 0x10000 then
    [0xE0 ||| (n >>> 12), 0x80 ||| ((n >>> 6) &&& 0x3F), 0x80 ||| (n &&& 0x3F)]
  else
    [0xF0 ||| (n >>> 18), 0x80 ||| ((n >>> 12) &&& 0x3F),
     0x80 ||| ((n >>> 6) &&& 0x3F), 0x80 ||| (n &&& 0x3F)]

/-- UTF-8 encoding of a string, as Python's `str.encode('utf-8')`. -/
def utf8Encode (s : String) : List Nat := s.data.flatMap utf8Char

/-- Embedding of `sha256_hash` (both `pow_simulator.py` and `merkle_tree.py`
define it identically): `hashlib.sha256(data.encode('utf-8')).hexdigest()`. -/
def sha256_hash (data : String) : String := bytesToHex (sha256Bytes (utf8Encode data))

/-- Standard test vector: SHA-256 of "abc". -/
theorem sha256_vector_abc :
    sha256_hash "abc" = "ba7816bf8f01cfea414140de5dae2223b00361a396177a9cb410ff61f20015ad" := by
  decide

/-- Standard test vector: SHA-256 of the empty string. -/
theorem sha256_vector_empty :
    sha256_hash "" = "e3b0c44298fc1c149afbf4c8996fb92427ae41e4649b934ca495991b7852b855" := by
  decide

/-- Test vector for multi-byte UTF-8 input (the Chinese word for "block"). -/
theorem sha256_vector_multibyte :
    sha256_hash "区块" = "ae60964c61d97034caca8ad7ca2a706adf7da5115e2812bb9b68c49bf28900cb" := by
  decide

/-! ## Kernel-evaluable rational arithmetic

Python floats are modelled as exact rationals throughout.  The `ℚ` field
operations of the library are `@[irreducible]`, so the embedding uses the
following operations, written over `Rat.divInt` (which the kernel can
evaluate); the bridge lemmas right below each prove the operation equal to
the corresponding field operation, and all theorem statements use the
ordinary field operations. -/

/-- The rational `n / 1`. -/
def qOfInt (n : Int) : ℚ := Rat.divInt n 1

/-- Evaluable addition on `ℚ`. -/
def qAdd (a b : ℚ) : ℚ := Rat.divInt (a.num * b.den + b.num * a.den) ((a.den : Int) * b.den)

/-- Evaluable subtraction on `ℚ`. -/
def qSub (a b : ℚ) : ℚ := Rat.divInt (a.num * b.den - b.num * a.den) ((a.den : Int) * b.den)

/-- Evaluable multiplication on `ℚ`. -/
def qMul (a b : ℚ) : ℚ := Rat.divInt (a.num * b.num) ((a.den : Int) * b.den)

/-- Evaluable division on `ℚ`. -/
def qDiv (a b : ℚ) : ℚ := Rat.divInt (a.num * b.den) ((a.den : Int) * b.num)

/-- Evaluable strict comparison on `ℚ`. -/
def qBlt (a b : ℚ) : Bool := decide (a.num * b.den < b.num * a.den)

theorem qOfInt_eq (n : Int) : qOfInt n = (n : ℚ) := (Rat.intCast_eq_divInt n).symm

theorem qAdd_eq (a b : ℚ) : qAdd a b = a + b := by
  conv_rhs => rw [← Rat.num_divInt_den a, ← Rat.num_divInt_den b]
  rw [qAdd, Rat.divInt_add_divInt _ _ (Int.natCast_ne_zero.2 a.den_nz)
    (Int.natCast_ne_zero.2 b.den_nz)]

theorem qSub_eq (a b : ℚ) : qSub a b = a - b := by
  conv_rhs => rw [← Rat.num_divInt_den a, ← Rat.num_divInt_den b]
  rw [qSub, Rat.divInt_sub_divInt _ _ (Int.natCast_ne_zero.2 a.den_nz)
    (Int.natCast_ne_zero.2 b.den_nz)]

theorem qMul_eq (a b : ℚ) : qMul a b = a * b := by
  conv_rhs => rw [← Rat.num_divInt_den a, ← Rat.num_divInt_den b]
  rw [qMul, Rat.divInt_mul_divInt']

theorem qDiv_eq (a b : ℚ) : qDiv a b = a / b := by
  conv_rhs => rw [← Rat.num_divInt_den a, ← Rat.num_divInt_den b]
  rw [qDiv, Rat.divInt_div_divInt]

theorem qBlt_iff (a b : ℚ) : qBlt a b = true ↔ a < b := by
  rw [qBlt, decide_eq_true_iff, Rat.lt_def]

/-! ## Python `round` on rationals

The difficulty predictor and the miner round with Python's built-in
`round(x, ndigits)`, which rounds half to even. -/

/-- Floor of a rational, written directly over the numerator and
denominator so that the kernel can evaluate it. -/
def ratFloor (x : ℚ) : Int := x.num.fdiv (x.den : Int)

/-- Round a rational to the nearest integer, ties to even (Python's
`round` semantics on exact values). -/
def roundHalfEven (x : ℚ) : Int :=
  let f := ratFloor x
  let frac := qSub x (qOfInt f)
  if qBlt frac (Rat.divInt 1 2) then f
  else if qBlt (Rat.divInt 1 2) frac then f + 1
  else if f % 2 = 0 then f else f + 1

/-- Python's `round(x, nd)` for `nd ≥ 0` digits, on exact rationals. -/
def pyRound (nd : Nat) (x : ℚ) : ℚ :=
  let m : ℚ := qOfInt ((10 ^ nd : Nat) : Int)
  qDiv (qOfInt (roundHalfEven (qMul x m))) m

/-! ## Embedding of `mining_tools/pow_simulator.py`

`MiningResult` keeps all seven fields of the Python dataclass.  The two
wall-clock readings taken by `mine_block` (`start_time = time.time()` and
the reading taken when computing `elapsed` at the return point) are
explicit oracle parameters `t0`, `t1`; `time_seconds = round(t1 - t0, 4)`.
Every other field is computed exactly as in the source. -/

/-- Embedding of the `MiningResult` dataclass. -/
structure MiningResult where
  success : Bool
  nonce : Int
  hash : String
  attempts : Int
  time_seconds : ℚ
  difficulty : Int
  data : String
deriving DecidableEq

/-- Embedding of `check_hash_difficulty`: Python's
`hash_hex.startswith('0' * difficulty)`.  Python string repetition with a
negative count yields the empty string, hence `Int.toNat`. -/
def check_hash_difficulty (hash_hex : String) (difficulty : Int) : Bool :=
  List.isPrefixOf (List.replicate difficulty.toNat '0') hash_hex.data

/-- The `while nonce < max_attempts` loop of `mine_block`.  `remaining`
counts the loop iterations still allowed (`max_attempts - nonce`, clamped
at zero), making the recursion structural. -/
def mineGo (data : String) (difficulty max_attempts : Int) (t0 t1 : ℚ) :
    Nat → Nat → MiningResult
  | nonce, 0 =>
    ⟨false, (nonce : Int), "", max_attempts, pyRound 4 (qSub t1 t0), difficulty, data⟩
  | nonce, remaining + 1 =>
    let block_hash := sha256_hash (data ++ toString nonce)
    if check_hash_difficulty block_hash difficulty then
      ⟨true, (nonce : Int), block_hash, (nonce : Int) + 1, pyRound 4 (qSub t1 t0),
       difficulty, data⟩
    else
      mineGo data difficulty max_attempts t0 t1 (nonce + 1) remaining

/-- Embedding of `mine_block(data, difficulty, max_attempts)`.  `t0` and
`t1` are the two `time.time()` readings (start and return). -/
def mine_block (data : String) (difficulty max_attempts : Int) (t0 t1 : ℚ) :
    MiningResult :=
  mineGo data difficulty max_attempts t0 t1 0 max_attempts.toNat

/-! ## Embedding of `mining_tools/difficulty.py` -/

/-- Blocks per difficulty epoch (`BLOCKS_PER_EPOCH`). -/
def BLOCKS_PER_EPOCH : Int := 2016

/-- Target block interval in seconds (`TARGET_BLOCK_TIME`). -/
def TARGET_BLOCK_TIME : ℚ := qOfInt 600

/-- Embedding of the dict returned by `get_epoch_blocks`. -/
structure EpochBlocks where
  epoch_start : Int
  current_height : Int
  blocks_in_epoch : Int
  blocks_remaining : Int
  progress_percent : ℚ
deriving DecidableEq

/-- Embedding of `get_epoch_blocks`.  Python `//` is floor division,
hence `Int.fdiv`. -/
def get_epoch_blocks (current_height : Int) : EpochBlocks :=
  let epoch_start := current_height.fdiv BLOCKS_PER_EPOCH * BLOCKS_PER_EPOCH
  let blocks_in_epoch := current_height - epoch_start + 1
  let blocks_remaining := BLOCKS_PER_EPOCH - blocks_in_epoch
  ⟨epoch_start, current_height, blocks_in_epoch, blocks_remaining,
   pyRound 1 (qMul (qDiv (qOfInt blocks_in_epoch) (qOfInt BLOCKS_PER_EPOCH)) (qOfInt 100))⟩

/-- The three adjustment quantities computed by
`predict_difficulty_adjustment` (source names `adjustment_ratio`,
`predicted_difficulty`, `adjustment_percent`; the first is renamed
`adjustment_factor` here). -/
structure AdjustmentPrediction where
  adjustment_factor : ℚ
  predicted_difficulty : ℚ
  adjustment_percent : ℚ
deriving DecidableEq

/-- Embedding of the core computation of `predict_difficulty_adjustment`
(lines computing `adjustment_ratio`, `predicted_difficulty`,
`adjustment_percent` and the two clamping branches), over exact
rationals. -/
def predict_difficulty_adjustment (current_difficulty avg_block_time : ℚ) :
    AdjustmentPrediction :=
  let r := qDiv TARGET_BLOCK_TIME avg_block_time
  let pd := qMul current_difficulty r
  let ap := qMul (qSub r (qOfInt 1)) (qOfInt 100)
  if qBlt (qOfInt 4) r then ⟨qOfInt 4, qMul current_difficulty (qOfInt 4), qOfInt 300⟩
  else if qBlt r (Rat.divInt 1 4) then
    ⟨Rat.divInt 1 4, qMul current_difficulty (Rat.divInt 1 4), qOfInt (-75)⟩
  else ⟨r, pd, ap⟩

/-! ## Embedding of `crypto_tools/merkle_tree.py`

The Python `MerkleNode` dataclass has optional `data`, `left`, `right`
fields; `build_merkle_tree` only ever constructs leaves (`data` set, no
children) and full internal nodes (both children set, no `data`), so the
embedding is an inductive with exactly those two shapes.  Python `==` on
the dataclass is recursive structural equality, i.e. `DecidableEq` here. -/

/-- Embedding of the `MerkleNode` dataclass, restricted to the two shapes
`build_merkle_tree` creates. -/
inductive MerkleNode where
  | leaf (hash : String) (data : String)
  | node (hash : String) (left right : MerkleNode)
deriving DecidableEq, Inhabited

/-- The `hash` field of a node. -/
def MerkleNode.hash : MerkleNode → String
  | .leaf h _ => h
  | .node h _ _ => h

/-- Parent node of the build loop:
`MerkleNode(hash=sha256_hash(left.hash + right.hash), left=left, right=right)`. -/
def mkParent (l r : MerkleNode) : MerkleNode :=
  .node (sha256_hash (l.hash ++ r.hash)) l r

/-- One pass of `for i in range(0, len(nodes), 2)`: pair adjacent elements;
a trailing singleton (odd input) pairs with itself, as Python's
`nodes[i + 1] if i + 1 < len(nodes) else nodes[i]`. -/
def pairUp {α : Type} (c : α → α → α) : List α → List α
  | [] => []
  | [x] => [c x x]
  | x :: y :: rest => c x y :: pairUp c rest

/-- The odd-count fix-up after a pass:
`if len(next_level) > 1 and len(next_level) % 2 == 1: next_level.append(next_level[-1])`. -/
def fixOdd {α : Type} [Inhabited α] (l : List α) : List α :=
  if 1 < l.length ∧ l.length % 2 = 1 then l ++ [l.getLast!] else l

/-- The `while len(nodes) > 1` loop shared by `build_merkle_tree` and
`build_tree_levels`, with a structural fuel argument (instantiated with
the list length, an upper bound on the number of passes). -/
def buildLoopFuel {α : Type} [Inhabited α] (c : α → α → α) : Nat → List α → List α
  | 0, l => l
  | fuel + 1, l => if l.length ≤ 1 then l else buildLoopFuel c fuel (fixOdd (pairUp c l))

/-- The build loop at adequate fuel. -/
def buildLoop {α : Type} [Inhabited α] (c : α → α → α) (l : List α) : List α :=
  buildLoopFuel c l.length l

/-- The leading duplication in both builders:
`if len(transactions) % 2 == 1: transactions = transactions + [transactions[-1]]`. -/
def dupIfOdd (txs : List String) : List String :=
  if txs.length % 2 = 1 then txs ++ [txs.getLast!] else txs

/-- Embedding of `build_merkle_tree`. -/
def build_merkle_tree (transactions : List String) : Option MerkleNode :=
  if transactions.isEmpty then none
  else
    let txs := dupIfOdd transactions
    let nodes := txs.map (fun tx => MerkleNode.leaf (sha256_hash tx) tx)
    match buildLoop mkParent nodes with
    | [] => none
    | n :: _ => some n

/-- Embedding of `get_merkle_root`. -/
def get_merkle_root (transactions : List String) : String :=
  match build_merkle_tree transactions with
  | some root => root.hash
  | none => ""

/-- Python slicing `s[:n]` on strings (first `n` code points). -/
def pyTake (s : String) (n : Nat) : String := String.mk (s.data.take n)

/-- The `short_hash` field: `root.hash[:16] + '...'`. -/
def shortHash (h : String) : String := pyTake h 16 ++ "..."

/-- Embedding of the dict produced by `get_tree_structure`: a leaf dict
has `hash`, `short_hash`, `data`, `type='leaf'`; a node dict has `hash`,
`short_hash`, `type='node'`, a `left` subdict, and a `right` subdict only
when `root.right != root.left`. -/
inductive TreeStruct where
  | leafS (hash short_hash : String) (data : String)
  | nodeS (hash short_hash : String) (left : TreeStruct) (right : Option TreeStruct)

/-- Embedding of `get_tree_structure`: the `right` key is present exactly
when `root.right and root.right != root.left` (children in built trees are
always present, so only the inequality matters). -/
def get_tree_structure : MerkleNode → TreeStruct
  | .leaf h d => .leafS h (shortHash h) d
  | .node h l r =>
    .nodeS h (shortHash h) (get_tree_structure l)
      (if r = l then none else some (get_tree_structure r))

/-- Embedding of the per-level dicts of `build_tree_levels`: the leaf
level holds `{hash, data}`, upper levels hold
`{hash, left_child, right_child}` (8-character hash prefixes). -/
inductive LevelEntry where
  | leafE (hash : String) (data : String)
  | nodeE (hash : String) (left_child right_child : String)
deriving DecidableEq, Inhabited

/-- The `hash` field of a level entry. -/
def LevelEntry.hash : LevelEntry → String
  | .leafE h _ => h
  | .nodeE h _ _ => h

/-- Combined entry of `build_tree_levels`:
`{hash: sha256_hash(left.hash + right.hash), left_child: left.hash[:8], right_child: right.hash[:8]}`. -/
def mkEntry (l r : LevelEntry) : LevelEntry :=
  .nodeE (sha256_hash (l.hash ++ r.hash)) (pyTake l.hash 8) (pyTake r.hash 8)

/-- The level-accumulating variant of the build loop: returns the list of
levels above the leaf level, bottom-up, as `build_tree_levels` accumulates
them. -/
def buildLevelsFuel {α : Type} [Inhabited α] (c : α → α → α) : Nat → List α → List (List α)
  | 0, _ => []
  | fuel + 1, cur =>
    if cur.length ≤ 1 then []
    else
      let next := fixOdd (pairUp c cur)
      next :: buildLevelsFuel c fuel next

/-- Embedding of `build_tree_levels` (levels returned root-first, as the
Python `levels[::-1]`). -/
def build_tree_levels (transactions : List String) : List (List LevelEntry) :=
  if transactions.isEmpty then []
  else
    let txs := dupIfOdd transactions
    let first := txs.map (fun tx => LevelEntry.leafE (sha256_hash tx) tx)
    (first :: buildLevelsFuel mkEntry first.length first).reverse

/-! ## Embedding of `crypto_tools/mini_blockchain.py`

The `timestamp` field is a Python float produced by `time.time()` and is
only ever used through its string rendering inside `calculate_hash`, so it
is modelled as the string `str(timestamp)`; it is universally quantified
in every theorem below. -/

/-- Embedding of the `Block` dataclass (with `hash` already assigned by
`__post_init__`). -/
structure Block where
  index : Int
  timestamp : String
  data : String
  previous_hash : String
  nonce : Int
  hash : String
deriving DecidableEq, Inhabited

/-- Embedding of `Block.calculate_hash`:
`sha256(f"{index}{timestamp}{data}{previous_hash}{nonce}")`. -/
def calculate_hash (index : Int) (timestamp data previous_hash : String) (nonce : Int) : String :=
  sha256_hash (toString index ++ timestamp ++ data ++ previous_hash ++ toString nonce)

/-- The recomputation `current.calculate_hash()` used by validation. -/
def Block.recomputeHash (b : Block) : String :=
  calculate_hash b.index b.timestamp b.data b.previous_hash b.nonce

/-- Block construction as the dataclass performs it: `nonce = 0` and
`hash` computed immediately by `__post_init__`. -/
def mkBlock (index : Int) (timestamp data previous_hash : String) : Block :=
  ⟨index, timestamp, data, previous_hash, 0, calculate_hash index timestamp data previous_hash 0⟩

/-- The fixed genesis payload. -/
def GENESIS_DATA : String := "Genesis Block - 创世区块"

/-- Embedding of `create_genesis_block` (called by `Blockchain.__init__`);
`ts` is the `time.time()` reading. -/
def create_genesis_block (ts : String) : Block :=
  mkBlock 0 ts GENESIS_DATA (String.mk (List.replicate 64 '0'))

/-- Embedding of `add_block`; `ts` is the `time.time()` reading. -/
def add_block (chain : List Block) (ts data : String) : List Block :=
  chain ++ [mkBlock (chain.length : Int) ts data chain.getLast!.hash]

/-- A chain built by `Blockchain()` followed by `add_block` calls, one
`(timestamp, data)` pair per appended block. -/
def build_chain (ts0 : String) (adds : List (String × String)) : List Block :=
  adds.foldl (fun c p => add_block c p.1 p.2) [create_genesis_block ts0]

/-- Embedding of the dict returned by `is_chain_valid`. -/
structure ValidationResult where
  valid : Bool
  errors : List String
  checked_blocks : Nat
deriving DecidableEq

/-- The hash-mismatch error message `f"区块 {i}: 哈希不匹配（数据可能被篡改）"`. -/
def hashMismatchMsg (i : Nat) : String := "区块 " ++ toString i ++ ": 哈希不匹配（数据可能被篡改）"

/-- The link-mismatch error message `f"区块 {i}: 前块哈希不匹配（链断裂）"`. -/
def linkMismatchMsg (i : Nat) : String := "区块 " ++ toString i ++ ": 前块哈希不匹配（链断裂）"

/-- The two independent per-block checks of the validation loop body, in
source order (hash recomputation first, then the link to the predecessor). -/
def blockErrors (chain : List Block) (i : Nat) : List String :=
  let current := chain.getD i default
  let previous := chain.getD (i - 1) default
  (if current.hash ≠ current.recomputeHash then [hashMismatchMsg i] else []) ++
  (if current.previous_hash ≠ previous.hash then [linkMismatchMsg i] else [])

/-- Embedding of `is_chain_valid`: the loop runs over
`range(1, len(chain))` (the list `[1, ..., len - 1]`); `valid` starts
`True` and is set `False` exactly when an error is appended. -/
def is_chain_valid (chain : List Block) : ValidationResult :=
  let errs := (List.range' 1 (chain.length - 1)).flatMap (blockErrors chain)
  ⟨errs.isEmpty, errs, chain.length⟩

/-- Embedding of the two dict shapes returned by `tamper_block`. -/
inductive TamperResult where
  | rejected (error : String)
  | tampered (block_index : Int) (old_data new_data : String) (message : String)
deriving DecidableEq

/-- Embedding of `tamper_block`: out-of-range indices are rejected with no
mutation; otherwise `data` is overwritten in place and `hash` is left
stale on purpose.  Returns the resulting chain together with the result
dict. -/
def tamper_block (chain : List Block) (index : Int) (new_data : String) :
    List Block × TamperResult :=
  if index < 0 ∨ (chain.length : Int) ≤ index then
    (chain, .rejected "无效的区块索引")
  else
    let i := index.toNat
    let old := chain.getD i default
    (chain.set i { old with data := new_data },
     .tampered index old.data new_data "数据已修改，但哈希未更新（模拟篡改）")

/-- The common hash combination of both builders:
`sha256_hash(left_hash + right_hash)`. -/
def combineHash (a b : String) : String := sha256_hash (a ++ b)

/-- Whether a structure rendering is a full binary tree: every `node`
entry carries both a `left` and a `right` subtree. -/
def isFull : TreeStruct → Bool
  | .leafS .. => true
  | .nodeS _ _ l (some r) => isFull l && isFull r
  | .nodeS _ _ _ none => false

/-- Whether a Merkle tree contains an internal node whose two children
are equal as values (the shape produced by the odd-count duplication). -/
def hasEqChildren : MerkleNode → Bool
  | .leaf .. => false
  | .node _ l r => (l == r) || hasEqChildren l || hasEqChildren r

/-- The six fields of a `MiningResult` other than the wall-clock
`time_seconds`. -/
def stripTime (r : MiningResult) : Bool × Int × String × Int × Int × String :=
  (r.success, r.nonce, r.hash, r.attempts, r.difficulty, r.data)

/-- Sanity example: a freshly built two-block chain validates cleanly. -/
theorem chain_valid_sanity :
    (is_chain_valid (build_chain "1700000000.0" [("1700000001.0", "A")])).valid = true := by
  decide

/-- Sanity example: the Merkle root of the empty list is the empty string. -/
theorem get_merkle_root_nil : get_merkle_root [] = "" := by decide

/-- Sanity example: a singleton input is duplicated and paired once, so its
root is the hash of the doubled leaf digest. -/
theorem get_merkle_root_single_sanity :
    get_merkle_root ["x"] = sha256_hash (sha256_hash "x" ++ sha256_hash "x") := by decide

/-- Sanity example: Python `round(2.5) == 2` (ties to even). -/
theorem pyRound_tie_even : pyRound 0 (Rat.divInt 5 2) = qOfInt 2 := by decide

/-- Sanity example: mining at difficulty 0 succeeds immediately at nonce 0. -/
theorem mine_block_sanity :
    (mine_block "a" 0 5 0 0).success = true ∧ (mine_block "a" 0 5 0 0).nonce = 0 := by
  constructor <;> decide

/-! ## Claim theorems -/

/-- C4: for every current difficulty and every positive average block
time, the predictor computes `ratio = 600 / avg_block_time` clamped to
`[0.25, 4.0]` inclusive, returns `predicted_difficulty =
current_difficulty * clamped_ratio` and `adjustment_percent =
(clamped_ratio - 1) * 100`, and whenever the clamp binds the percent is
exactly `300` (ratio clamped to 4) or exactly `-75` (ratio clamped to
0.25). -/
theorem predict_difficulty_adjustment_spec (D avg : ℚ) (hpos : 0 < avg) :
    (predict_difficulty_adjustment D avg).adjustment_factor
        = min 4 (max (1 / 4) (600 / avg)) ∧
    (predict_difficulty_adjustment D avg).predicted_difficulty
        = D * min 4 (max (1 / 4) (600 / avg)) ∧
    (predict_difficulty_adjustment D avg).adjustment_percent
        = (min 4 (max (1 / 4) (600 / avg)) - 1) * 100 ∧
    (4 < 600 / avg → (predict_difficulty_adjustment D avg).adjustment_percent = 300) ∧
    (600 / avg < 1 / 4 → (predict_difficulty_adjustment D avg).adjustment_percent = -75) := by
  have hT : TARGET_BLOCK_TIME = (600 : ℚ) := by rw [TARGET_BLOCK_TIME, qOfInt_eq]; norm_num
  have h14 : Rat.divInt 1 4 = (1 / 4 : ℚ) := by rw [Rat.divInt_eq_div]; norm_num
  have hr : qDiv TARGET_BLOCK_TIME avg = 600 / avg := by rw [qDiv_eq, hT]
  have c4 : qOfInt 4 = (4 : ℚ) := by rw [qOfInt_eq]; norm_num
  have c1 : qOfInt 1 = (1 : ℚ) := by rw [qOfInt_eq]; norm_num
  have c100 : qOfInt 100 = (100 : ℚ) := by rw [qOfInt_eq]; norm_num
  have c300 : qOfInt 300 = (300 : ℚ) := by rw [qOfInt_eq]; norm_num
  have c75 : qOfInt (-75) = (-75 : ℚ) := by rw [qOfInt_eq]; norm_num
  unfold predict_difficulty_adjustment
  dsimp only
  split_ifs with hgt hlt
  · rw [qBlt_iff, c4, hr] at hgt
    have hmax : max (1 / 4 : ℚ) (600 / avg) = 600 / avg := max_eq_right (by linarith)
    have hmin : min (4 : ℚ) (600 / avg) = 4 := min_eq_left hgt.le
    dsimp only
    rw [hmax, hmin, c4, c300]
    exact ⟨rfl, by rw [qMul_eq], by norm_num, fun _ => rfl, fun h' => absurd h' (by linarith)⟩
  · rw [qBlt_iff, c4, hr] at hgt
    rw [qBlt_iff, hr, h14] at hlt
    have hmax : max (1 / 4 : ℚ) (600 / avg) = 1 / 4 := max_eq_left hlt.le
    have hmin : min (4 : ℚ) (1 / 4 : ℚ) = 1 / 4 := min_eq_right (by norm_num)
    dsimp only
    rw [hmax, hmin, h14, c75]
    exact ⟨rfl, by rw [qMul_eq], by norm_num, fun h' => absurd h' (by linarith), fun _ => rfl⟩
  · rw [qBlt_iff, c4, hr] at hgt
    rw [qBlt_iff, hr, h14] at hlt
    push_neg at hgt hlt
    have hmax : max (1 / 4 : ℚ) (600 / avg) = 600 / avg := max_eq_right hlt
    have hmin : min (4 : ℚ) (600 / avg) = 600 / avg := min_eq_right hgt
    dsimp only
    rw [hmax, hmin, hr, c1, c100]
    refine ⟨rfl, by rw [qMul_eq], ?_, fun h' => absurd h' (by linarith),
      fun h' => absurd h' (by linarith)⟩
    show qMul (qSub (600 / avg) 1) 100 = (600 / avg - 1) * 100
    rw [qSub_eq, qMul_eq]

/-- C4 witness: with difficulty 2 and average block time 100 seconds the
raw ratio 6 is clamped to 4 and the percent reads exactly 300. -/
theorem predict_difficulty_adjustment_spec_witness :
    (0 : ℚ) < 100 ∧ (4 : ℚ) < 600 / 100 ∧
    (predict_difficulty_adjustment 2 100).adjustment_percent = 300 :=
  ⟨by norm_num, by norm_num,
   (predict_difficulty_adjustment_spec 2 100 (by norm_num)).2.2.2.1 (by norm_num)⟩

/-- Floor division on a cast natural agrees with natural division. -/
theorem fdiv_natCast (h n : Nat) : Int.fdiv (h : Int) (n : Int) = ((h / n : Nat) : Int) := by
  cases h with
  | zero => simp [Int.fdiv]
  | succ k => rfl

/-- C8 counterexample: at height 0 the returned progress field is `0.0`
(a rounded percentage), not the fraction `blocks_completed / 2016 =
1 / 2016` the claim states. -/
theorem get_epoch_blocks_progress_counterexample :
    (get_epoch_blocks 0).progress_percent ≠
      ((get_epoch_blocks 0).blocks_in_epoch : ℚ) / 2016 := by
  have h1 : (get_epoch_blocks 0).progress_percent = qOfInt 0 := by decide
  have h2 : (get_epoch_blocks 0).blocks_in_epoch = 1 := by decide
  rw [h1, h2, qOfInt_eq]
  norm_num

/-- C8 amended: for every non-negative height the epoch summary has
`epoch_start = floor(height / 2016) * 2016`, `blocks_in_epoch = height -
epoch_start + 1`, `blocks_remaining = 2016 - blocks_in_epoch`, and a
`progress_percent` field equal to `blocks_in_epoch / 2016 * 100` rounded
to one decimal place (not an unrounded fraction). -/
theorem get_epoch_blocks_spec (h : Nat) :
    (get_epoch_blocks (h : Int)).epoch_start = ((h / 2016 * 2016 : Nat) : Int) ∧
    (get_epoch_blocks (h : Int)).blocks_in_epoch
        = (h : Int) - ((h / 2016 * 2016 : Nat) : Int) + 1 ∧
    (get_epoch_blocks (h : Int)).blocks_remaining
        = 2016 - ((h : Int) - ((h / 2016 * 2016 : Nat) : Int) + 1) ∧
    (get_epoch_blocks (h : Int)).progress_percent
        = pyRound 1 ((((h : Int) - ((h / 2016 * 2016 : Nat) : Int) + 1 : Int) : ℚ) / 2016 * 100) := by
  have hfdiv : (h : Int).fdiv BLOCKS_PER_EPOCH = ((h / 2016 : Nat) : Int) := by
    rw [BLOCKS_PER_EPOCH]; exact fdiv_natCast h 2016
  unfold get_epoch_blocks
  dsimp only
  rw [hfdiv]
  have hcast : ((h / 2016 : Nat) : Int) * BLOCKS_PER_EPOCH = ((h / 2016 * 2016 : Nat) : Int) := by
    rw [BLOCKS_PER_EPOCH]; push_cast; ring
  rw [hcast]
  refine ⟨rfl, rfl, by rw [BLOCKS_PER_EPOCH], ?_⟩
  congr 1
  simp only [qMul_eq, qDiv_eq, qOfInt_eq]
  rw [BLOCKS_PER_EPOCH]
  push_cast
  ring

/-- C6 counterexample: a negative difficulty makes the zero-prefix test
vacuous, so `mine_block("abc", -1, 5)` returns a normal successful
`MiningResult` at nonce 0, and `mine_block("abc", 1, -3)` returns a
normal exhaustion `MiningResult` with `attempts = -3`; neither call
raises an argument error. -/
theorem mine_block_negative_args_counterexample :
    (mine_block "abc" (-1) 5 (qOfInt 0) (qOfInt 0)).success = true ∧
    (mine_block "abc" (-1) 5 (qOfInt 0) (qOfInt 0)).nonce = 0 ∧
    (mine_block "abc" 1 (-3) (qOfInt 0) (qOfInt 0)).success = false ∧
    (mine_block "abc" 1 (-3) (qOfInt 0) (qOfInt 0)).attempts = -3 :=
  ⟨by decide, by decide, by decide, by decide⟩

/-- C6 amended: `mine_block` performs no argument validation.  With a
negative difficulty every digest passes the prefix check (Python's
`'0' * difficulty` is empty), so the call succeeds immediately at nonce 0
whenever `max_attempts ≥ 1`; with `max_attempts ≤ 0` the loop body never
runs and a normal exhaustion result with `attempts = max_attempts` is
returned. -/
theorem mine_block_negative_args (data : String) (d m : Int) (t0 t1 : ℚ) :
    (d < 0 → 1 ≤ m →
      mine_block data d m t0 t1 =
        ⟨true, 0, sha256_hash (data ++ "0"), 1, pyRound 4 (qSub t1 t0), d, data⟩) ∧
    (m ≤ 0 →
      mine_block data d m t0 t1 = ⟨false, 0, "", m, pyRound 4 (qSub t1 t0), d, data⟩) := by
  constructor
  · intro hd hm
    have htn : d.toNat = 0 := Int.toNat_of_nonpos (le_of_lt hd)
    have hcheck : check_hash_difficulty (sha256_hash (data ++ toString (0 : Nat))) d = true := by
      rw [check_hash_difficulty, htn]
      rfl
    obtain ⟨k, hk⟩ : ∃ k, m.toNat = k + 1 :=
      ⟨m.toNat - 1, by omega⟩
    have h0 : (toString (0 : Nat)) = "0" := rfl
    rw [mine_block, hk, mineGo, if_pos hcheck, h0]
    norm_num
  · intro hm
    have : m.toNat = 0 := Int.toNat_of_nonpos hm
    rw [mine_block, this, mineGo]
    norm_num

/-- C6 amended witness: the amended behaviour at the concrete calls
`mine_block("a", -1, 5)` and `mine_block("a", 1, -3)`. -/
theorem mine_block_negative_args_witness :
    mine_block "a" (-1) 5 (qOfInt 0) (qOfInt 0)
      = ⟨true, 0, sha256_hash ("a" ++ "0"), 1, pyRound 4 (qSub (qOfInt 0) (qOfInt 0)), -1, "a"⟩ ∧
    mine_block "a" 1 (-3) (qOfInt 0) (qOfInt 0)
      = ⟨false, 0, "", -3, pyRound 4 (qSub (qOfInt 0) (qOfInt 0)), 1, "a"⟩ :=
  ⟨(mine_block_negative_args "a" (-1) 5 (qOfInt 0) (qOfInt 0)).1 (by decide) (by decide),
   (mine_block_negative_args "a" 1 (-3) (qOfInt 0) (qOfInt 0)).2 (by decide)⟩

/-- C7 counterexample: the `time_seconds` field is derived from the two
wall-clock readings, not from `(payload, difficulty, max_attempts)`: two
invocations with identical arguments but different clock readings return
different `MiningResult` values, so the results are not identical in
every field. -/
theorem mine_block_clock_counterexample :
    mine_block "a" 0 1 (qOfInt 0) (qOfInt 0) ≠ mine_block "a" 0 1 (qOfInt 0) (qOfInt 1) := by
  decide

/-- C7 amended: `mine_block` is deterministic in every field except
`time_seconds`: for identical `(payload, difficulty, max_attempts)` the
`success`, `nonce`, `hash`, `attempts`, `difficulty` and `data` fields
are identical whatever the wall-clock readings are. -/
theorem mine_block_deterministic (data : String) (d m : Int) (t0 t1 t0' t1' : ℚ) :
    stripTime (mine_block data d m t0 t1) = stripTime (mine_block data d m t0' t1') := by
  suffices h : ∀ rem nonce,
      stripTime (mineGo data d m t0 t1 nonce rem)
        = stripTime (mineGo data d m t0' t1' nonce rem) from h m.toNat 0
  intro rem
  induction rem with
  | zero => intro nonce; simp only [mineGo, stripTime]
  | succ r ih =>
    intro nonce
    simp only [mineGo]
    by_cases hc : check_hash_difficulty (sha256_hash (data ++ toString nonce)) d = true
    · rw [if_pos hc, if_pos hc]
      simp only [stripTime]
    · rw [if_neg hc, if_neg hc]
      exact ih (nonce + 1)

/-- Helper characterising the mining loop: either some offset within the
remaining budget passes the difficulty check — and the loop returns the
first such nonce with its digest and 1-based attempt count — or no offset
does and the loop returns the exhaustion result. -/
theorem mineGo_spec (data : String) (d m : Int) (t0 t1 : ℚ) :
    ∀ rem nonce : Nat,
      (∃ k : Nat, k < rem ∧
        check_hash_difficulty (sha256_hash (data ++ toString (nonce + k))) d = true ∧
        (∀ j : Nat, j < k →
          check_hash_difficulty (sha256_hash (data ++ toString (nonce + j))) d = false) ∧
        mineGo data d m t0 t1 nonce rem =
          ⟨true, ((nonce + k : Nat) : Int), sha256_hash (data ++ toString (nonce + k)),
           ((nonce + k : Nat) : Int) + 1, pyRound 4 (qSub t1 t0), d, data⟩) ∨
      ((∀ k : Nat, k < rem →
          check_hash_difficulty (sha256_hash (data ++ toString (nonce + k))) d = false) ∧
        mineGo data d m t0 t1 nonce rem =
          ⟨false, ((nonce + rem : Nat) : Int), "", m, pyRound 4 (qSub t1 t0), d, data⟩) := by
  intro rem
  induction rem with
  | zero =>
    intro nonce
    right
    exact ⟨fun k hk => absurd hk (Nat.not_lt_zero k), by simp only [mineGo, Nat.add_zero]⟩
  | succ r ih =>
    intro nonce
    cases hc : check_hash_difficulty (sha256_hash (data ++ toString nonce)) d with
    | true =>
      left
      refine ⟨0, Nat.succ_pos r, ?_, ?_, ?_⟩
      · rw [Nat.add_zero]; exact hc
      · intro j hj; exact absurd hj (Nat.not_lt_zero j)
      · simp only [mineGo]
        rw [if_pos hc]
        simp
    | false =>
      have hcneg : ¬(check_hash_difficulty (sha256_hash (data ++ toString nonce)) d = true) := by
        rw [hc]; exact Bool.false_ne_true
      rcases ih (nonce + 1) with ⟨k, hk, hck, hmin, heq⟩ | ⟨hall, heq⟩
      · left
        have harith : nonce + (k + 1) = nonce + 1 + k := by omega
        refine ⟨k + 1, Nat.succ_lt_succ hk, ?_, ?_, ?_⟩
        · rw [harith]; exact hck
        · intro j hj
          cases j with
          | zero => rw [Nat.add_zero]; exact hc
          | succ j' =>
            have : nonce + (j' + 1) = nonce + 1 + j' := by omega
            rw [this]
            exact hmin j' (by omega)
        · simp only [mineGo]
          rw [if_neg hcneg, harith]
          exact heq
      · right
        have harith : nonce + (r + 1) = nonce + 1 + r := by omega
        refine ⟨?_, ?_⟩
        · intro k hk
          cases k with
          | zero => rw [Nat.add_zero]; exact hc
          | succ k' =>
            have : nonce + (k' + 1) = nonce + 1 + k' := by omega
            rw [this]
            exact hall k' (by omega)
        · simp only [mineGo]
          rw [if_neg hcneg, harith]
          exact heq

/-- C1: for every payload, every difficulty and every non-negative
`max_attempts`, `mine_block` succeeds exactly when some nonce in
`[0, max_attempts)` yields a digest with the required leading-zero
prefix; on success the returned nonce is the least such nonce, the
returned hash is the digest of `payload ++ str(nonce)`, and
`attempts = nonce + 1`; on exhaustion `success = false`,
`attempts = max_attempts` and `hash = ""`. -/
theorem mine_block_search_spec (data : String) (d m : Int) (t0 t1 : ℚ)
    (hd : 0 ≤ d) (hm : 0 ≤ m) :
    ((mine_block data d m t0 t1).success = true ↔
      ∃ n : Nat, (n : Int) < m ∧
        check_hash_difficulty (sha256_hash (data ++ toString n)) d = true) ∧
    ((mine_block data d m t0 t1).success = true →
      ∃ n : Nat, (mine_block data d m t0 t1).nonce = (n : Int) ∧
        check_hash_difficulty (sha256_hash (data ++ toString n)) d = true ∧
        (∀ j : Nat, j < n →
          check_hash_difficulty (sha256_hash (data ++ toString j)) d = false) ∧
        (mine_block data d m t0 t1).hash = sha256_hash (data ++ toString n) ∧
        (mine_block data d m t0 t1).attempts = (n : Int) + 1) ∧
    ((mine_block data d m t0 t1).success = false →
      (mine_block data d m t0 t1).attempts = m ∧ (mine_block data d m t0 t1).hash = "") := by
  have hmb : mine_block data d m t0 t1 = mineGo data d m t0 t1 0 m.toNat := rfl
  rcases mineGo_spec data d m t0 t1 m.toNat 0 with ⟨k, hk, hck, hmin, heq⟩ | ⟨hall, heq⟩
  · simp only [Nat.zero_add] at hck hmin heq
    rw [hmb, heq]
    refine ⟨⟨fun _ => ⟨k, by omega, hck⟩, fun _ => rfl⟩, fun _ => ⟨k, rfl, hck, hmin, rfl, rfl⟩,
      fun hfalse => absurd hfalse (by simp)⟩
  · simp only [Nat.zero_add] at hall heq
    rw [hmb, heq]
    refine ⟨⟨fun htrue => absurd htrue (by simp), ?_⟩, fun htrue => absurd htrue (by simp),
      fun _ => ⟨rfl, rfl⟩⟩
    rintro ⟨n, hn, hcn⟩
    have := hall n (by omega)
    rw [this] at hcn
    exact absurd hcn (by simp)

/-- C1 witness: at difficulty 0 and a one-attempt budget, the spec applied
to the concrete call `mine_block("a", 0, 1)`. -/
theorem mine_block_search_spec_witness :
    (0 : Int) ≤ 0 ∧ (0 : Int) ≤ 1 ∧
    (((mine_block "a" 0 1 (qOfInt 0) (qOfInt 0)).success = true ↔
      ∃ n : Nat, (n : Int) < 1 ∧
        check_hash_difficulty (sha256_hash ("a" ++ toString n)) 0 = true) ∧
    ((mine_block "a" 0 1 (qOfInt 0) (qOfInt 0)).success = true →
      ∃ n : Nat, (mine_block "a" 0 1 (qOfInt 0) (qOfInt 0)).nonce = (n : Int) ∧
        check_hash_difficulty (sha256_hash ("a" ++ toString n)) 0 = true ∧
        (∀ j : Nat, j < n →
          check_hash_difficulty (sha256_hash ("a" ++ toString j)) 0 = false) ∧
        (mine_block "a" 0 1 (qOfInt 0) (qOfInt 0)).hash = sha256_hash ("a" ++ toString n) ∧
        (mine_block "a" 0 1 (qOfInt 0) (qOfInt 0)).attempts = (n : Int) + 1) ∧
    ((mine_block "a" 0 1 (qOfInt 0) (qOfInt 0)).success = false →
      (mine_block "a" 0 1 (qOfInt 0) (qOfInt 0)).attempts = 1 ∧
      (mine_block "a" 0 1 (qOfInt 0) (qOfInt 0)).hash = "")) :=
  ⟨by decide, by decide,
   mine_block_search_spec "a" 0 1 (qOfInt 0) (qOfInt 0) (by decide) (by decide)⟩

/-- C2 counterexample: for the singleton input `["x"]` the root is not the
leaf digest `H("x")`; the leaf is duplicated and one pairing step occurs. -/
theorem merkle_single_counterexample : get_merkle_root ["x"] ≠ sha256_hash "x" := by decide

/-- C2 amended: for every single-element transaction list `[x]` the build
duplicates the leaf and performs one pairing step, so the root hash is
`H(H(x) ++ H(x))`, not the leaf digest `H(x)`. -/
theorem merkle_single_root (x : String) :
    get_merkle_root [x] = sha256_hash (sha256_hash x ++ sha256_hash x) := rfl

/-- C5: for every transaction list of odd length the Merkle root is
unchanged by appending the last element once more, because the build
itself performs exactly that duplication on odd input. -/
theorem merkle_odd_duplication (L : List String) (h : L.length % 2 = 1) :
    get_merkle_root L = get_merkle_root (L ++ [L.getLast!]) := by
  have hisEmpty : ¬(L.isEmpty = true) := by
    cases L with
    | nil => simp at h
    | cons a as => simp
  have hisEmpty' : ¬((L ++ [L.getLast!]).isEmpty = true) := by
    cases L with
    | nil => simp at h
    | cons a as => simp
  have hdup : dupIfOdd L = L ++ [L.getLast!] := by
    rw [dupIfOdd, if_pos h]
  have hlen : (L ++ [L.getLast!]).length % 2 = 0 := by
    rw [List.length_append, List.length_singleton]
    omega
  have hdup' : dupIfOdd (L ++ [L.getLast!]) = L ++ [L.getLast!] := by
    rw [dupIfOdd, if_neg (by omega)]
  rw [get_merkle_root, get_merkle_root, build_merkle_tree, build_merkle_tree,
    if_neg hisEmpty, if_neg hisEmpty', hdup, hdup']

/-- C5 witness: the odd-duplication rule at the concrete input from the
spec, `get_root(["a","b","c"]) == get_root(["a","b","c","c"])`. -/
theorem merkle_odd_duplication_witness :
    ["a", "b", "c"].length % 2 = 1 ∧
    get_merkle_root ["a", "b", "c"] = get_merkle_root ["a", "b", "c", "c"] :=
  ⟨by decide, merkle_odd_duplication ["a", "b", "c"] (by decide)⟩

/-! ### Lemmas relating the two Merkle builders (for C9) -/

/-- One pairing pass halves the level size, rounding up. -/
theorem pairUp_length {α : Type} (c : α → α → α) :
    ∀ l : List α, (pairUp c l).length = (l.length + 1) / 2
  | [] => by simp [pairUp]
  | [x] => by simp [pairUp]
  | x :: y :: rest => by
    simp only [pairUp, List.length_cons]
    rw [pairUp_length c rest]
    omega

/-- A pairing pass commutes with mapping along a combination homomorphism. -/
theorem pairUp_map {α β : Type} (c : α → α → α) (c' : β → β → β) (f : α → β)
    (hf : ∀ x y, f (c x y) = c' (f x) (f y)) :
    ∀ l : List α, (pairUp c l).map f = pairUp c' (l.map f)
  | [] => by simp [pairUp]
  | [x] => by simp [pairUp, hf]
  | x :: y :: rest => by
    simp only [pairUp, List.map_cons, hf]
    rw [pairUp_map c c' f hf rest]

/-- Mapping commutes with taking the (unchecked) last element of a
non-empty list. -/
theorem getLast_bang_map {α β : Type} [Inhabited α] [Inhabited β] (f : α → β) :
    ∀ l : List α, l ≠ [] → (l.map f).getLast! = f l.getLast!
  | [], h => absurd rfl h
  | [x], _ => rfl
  | x :: y :: rest, _ => by
    have h1 : ((x :: y :: rest).map f).getLast! = ((y :: rest).map f).getLast! := rfl
    have h2 : (x :: y :: rest).getLast! = (y :: rest).getLast! := rfl
    rw [h1, h2]
    exact getLast_bang_map f (y :: rest) (by simp)

/-- The odd-level fix-up commutes with mapping. -/
theorem fixOdd_map {α β : Type} [Inhabited α] [Inhabited β] (f : α → β) (l : List α) :
    (fixOdd l).map f = fixOdd (l.map f) := by
  rw [fixOdd, fixOdd]
  simp only [List.length_map]
  split_ifs with hcond
  · rw [List.map_append, List.map_singleton, getLast_bang_map f l (by intro hl; rw [hl] at hcond; simp at hcond)]
  · rfl

/-- The build loop commutes with mapping along a combination
homomorphism, fuel held fixed. -/
theorem buildLoopFuel_map {α β : Type} [Inhabited α] [Inhabited β]
    (c : α → α → α) (c' : β → β → β) (f : α → β)
    (hf : ∀ x y, f (c x y) = c' (f x) (f y)) :
    ∀ (fuel : Nat) (l : List α),
      (buildLoopFuel c fuel l).map f = buildLoopFuel c' fuel (l.map f) := by
  intro fuel
  induction fuel with
  | zero => intro l; rfl
  | succ n ih =>
    intro l
    rw [buildLoopFuel, buildLoopFuel]
    simp only [List.length_map]
    split_ifs with hlen
    · rfl
    · rw [ih, fixOdd_map, pairUp_map c c' f hf]

/-- With adequate fuel the build loop collapses a non-empty level to a
single element. -/
theorem buildLoopFuel_singleton {α : Type} [Inhabited α] (c : α → α → α) :
    ∀ (fuel : Nat) (l : List α), 0 < l.length → l.length ≤ fuel + 1 →
      ∃ r, buildLoopFuel c fuel l = [r] := by
  intro fuel
  induction fuel with
  | zero =>
    intro l h1 h2
    obtain ⟨a, ha⟩ := List.length_eq_one.1 (show l.length = 1 by omega)
    exact ⟨a, by rw [buildLoopFuel, ha]⟩
  | succ n ih =>
    intro l h1 h2
    rw [buildLoopFuel]
    split_ifs with hle
    · obtain ⟨a, ha⟩ := List.length_eq_one.1 (show l.length = 1 by omega)
      exact ⟨a, ha⟩
    · have hp : (pairUp c l).length = (l.length + 1) / 2 := pairUp_length c l
      by_cases hcond : 1 < (pairUp c l).length ∧ (pairUp c l).length % 2 = 1
      · rw [fixOdd, if_pos hcond]
        apply ih
        · simp
        · simp only [List.length_append, List.length_singleton]
          omega
      · rw [fixOdd, if_neg hcond]
        apply ih
        · omega
        · omega

/-- The level accumulator's last level is the build loop's result. -/
theorem buildLevelsFuel_getLast {α : Type} [Inhabited α] (c : α → α → α) :
    ∀ (fuel : Nat) (cur : List α),
      (cur :: buildLevelsFuel c fuel cur).getLast? = some (buildLoopFuel c fuel cur) := by
  intro fuel
  induction fuel with
  | zero => intro cur; rfl
  | succ n ih =>
    intro cur
    rw [buildLevelsFuel, buildLoopFuel]
    split_ifs with hle
    · rfl
    · rw [List.getLast?_cons_cons]
      exact ih (fixOdd (pairUp c cur))

/-- C9: for every non-empty transaction list the root-first level view is
consistent with `get_merkle_root`: its first level is a single entry whose
hash is exactly the Merkle root. -/
theorem build_tree_levels_consistent (L : List String) (hne : L ≠ []) :
    ∃ e : LevelEntry,
      (build_tree_levels L).head? = some [e] ∧ LevelEntry.hash e = get_merkle_root L := by
  have hisEmpty : ¬(L.isEmpty = true) := by
    cases L with
    | nil => exact absurd rfl hne
    | cons a as => simp
  have htxs_ne : dupIfOdd L ≠ [] := by
    rw [dupIfOdd]
    split_ifs <;> simp [hne]
  have htxs_pos : 0 < (dupIfOdd L).length := List.length_pos.2 htxs_ne
  obtain ⟨root, hroot⟩ := buildLoopFuel_singleton mkParent
    ((dupIfOdd L).map (fun tx => MerkleNode.leaf (sha256_hash tx) tx)).length
    ((dupIfOdd L).map (fun tx => MerkleNode.leaf (sha256_hash tx) tx))
    (by simpa using htxs_pos) (by omega)
  obtain ⟨e, he⟩ := buildLoopFuel_singleton mkEntry
    ((dupIfOdd L).map (fun tx => LevelEntry.leafE (sha256_hash tx) tx)).length
    ((dupIfOdd L).map (fun tx => LevelEntry.leafE (sha256_hash tx) tx))
    (by simpa using htxs_pos) (by omega)
  have hsim : (buildLoopFuel mkEntry
      ((dupIfOdd L).map (fun tx => LevelEntry.leafE (sha256_hash tx) tx)).length
      ((dupIfOdd L).map (fun tx => LevelEntry.leafE (sha256_hash tx) tx))).map LevelEntry.hash
      = (buildLoopFuel mkParent
      ((dupIfOdd L).map (fun tx => MerkleNode.leaf (sha256_hash tx) tx)).length
      ((dupIfOdd L).map (fun tx => MerkleNode.leaf (sha256_hash tx) tx))).map MerkleNode.hash := by
    rw [buildLoopFuel_map mkEntry combineHash LevelEntry.hash (fun x y => rfl),
        buildLoopFuel_map mkParent combineHash MerkleNode.hash (fun x y => rfl)]
    congr 1
    · simp
    · rw [List.map_map, List.map_map]
      rfl
  rw [he, hroot] at hsim
  simp only [List.map_cons, List.map_nil, List.cons.injEq, and_true] at hsim
  refine ⟨e, ?_, ?_⟩
  · rw [build_tree_levels, if_neg hisEmpty]
    dsimp only
    rw [List.head?_reverse, buildLevelsFuel_getLast, he]
  · rw [get_merkle_root, build_merkle_tree, if_neg hisEmpty]
    dsimp only
    rw [buildLoop, hroot]
    exact hsim

/-- C9 witness: the consistency of the level view with the root at the
concrete input `["a", "b"]`. -/
theorem build_tree_levels_consistent_witness :
    (["a", "b"] : List String) ≠ [] ∧
    ∃ e : LevelEntry,
      (build_tree_levels ["a", "b"]).head? = some [e] ∧
      LevelEntry.hash e = get_merkle_root ["a", "b"] :=
  ⟨by decide, build_tree_levels_consistent ["a", "b"] (by decide)⟩

/-! ### Lemmas on the duplicated-node shape of odd builds (for C10) -/

/-- The last element of a list with an explicit final element. -/
theorem getLast_bang_concat {α : Type} [Inhabited α] (a : α) :
    ∀ A : List α, (A ++ [a]).getLast! = a
  | [] => rfl
  | x :: xs => by
    have h1 : ((x :: xs) ++ [a]).getLast! = (xs ++ [a]).getLast! := by
      cases xs <;> rfl
    rw [h1]
    exact getLast_bang_concat a xs

/-- Pairing a level of even length with two extra elements appended pairs
those two elements together at the end. -/
theorem pairUp_append_pair {α : Type} (c : α → α → α) :
    ∀ l' : List α, l'.length % 2 = 0 →
      ∀ x y, pairUp c (l' ++ [x, y]) = pairUp c l' ++ [c x y]
  | [], _, x, y => by simp [pairUp]
  | [z], h, x, y => by simp at h
  | z :: w :: rest, h, x, y => by
    have hrest : rest.length % 2 = 0 := by
      simp only [List.length_cons] at h; omega
    show c z w :: pairUp c (rest ++ [x, y]) = c z w :: pairUp c rest ++ [c x y]
    rw [pairUp_append_pair c rest hrest x y]
    rfl

/-- The build loop is the identity on singleton levels, whatever the fuel. -/
theorem buildLoopFuel_single {α : Type} [Inhabited α] (c : α → α → α) (m : Nat) (r : α) :
    buildLoopFuel c m [r] = [r] := by
  cases m with
  | zero => rfl
  | succ n => rw [buildLoopFuel, if_pos (by simp)]

/-- The parent of two equal nodes, or of any node paired with a node that
already contains equal children, itself contains equal children. -/
theorem hasEqChildren_mkParent (x y : MerkleNode)
    (h : x = y ∨ hasEqChildren y = true) : hasEqChildren (mkParent x y) = true := by
  rcases h with h | h
  · simp [mkParent, hasEqChildren, h]
  · simp [mkParent, hasEqChildren, h]

/-- On an even level of at least two nodes whose final pair is equal or
whose final node has equal children somewhere, the build loop collapses to
a single root that contains a node with equal children. -/
theorem buildLoopFuel_hasEq :
    ∀ (fuel : Nat) (l : List MerkleNode),
      l.length % 2 = 0 → 2 ≤ l.length → l.length ≤ fuel + 1 →
      (∃ x y l', l = l' ++ [x, y] ∧ (x = y ∨ hasEqChildren y = true)) →
      ∃ r, buildLoopFuel mkParent fuel l = [r] ∧ hasEqChildren r = true := by
  intro fuel
  induction fuel with
  | zero =>
    intro l heven h2 hle _
    omega
  | succ n ih =>
    intro l heven h2 hle hP
    rw [buildLoopFuel, if_neg (by omega)]
    obtain ⟨x, y, l', hl, hxy⟩ := hP
    have hlen : l.length = l'.length + 2 := by
      rw [hl]; simp
    have hl'even : l'.length % 2 = 0 := by omega
    have hpair : pairUp mkParent l = pairUp mkParent l' ++ [mkParent x y] := by
      rw [hl]; exact pairUp_append_pair mkParent l' hl'even x y
    have hlastEq : hasEqChildren (mkParent x y) = true := hasEqChildren_mkParent x y hxy
    have hplen : (pairUp mkParent l).length = (pairUp mkParent l').length + 1 := by
      rw [hpair]; simp
    have hp'len : (pairUp mkParent l').length = l'.length / 2 := by
      rw [pairUp_length]; omega
    by_cases hk1 : (pairUp mkParent l).length = 1
    · have hnil : pairUp mkParent l' = [] := by
        rw [← List.length_eq_zero]; omega
      have hone : pairUp mkParent l = [mkParent x y] := by
        rw [hpair, hnil]; rfl
      rw [hone, fixOdd, if_neg (by simp)]
      exact ⟨mkParent x y, buildLoopFuel_single mkParent n (mkParent x y), hlastEq⟩
    · rw [fixOdd]
      split_ifs with hcond
      · -- odd count above one: the last node is duplicated
        have hlast : (pairUp mkParent l).getLast! = mkParent x y := by
          rw [hpair]; exact getLast_bang_concat _ _
        rw [hlast]
        apply ih
        · rw [List.length_append, List.length_singleton]; omega
        · rw [List.length_append, List.length_singleton]; omega
        · rw [List.length_append, List.length_singleton]; omega
        · exact ⟨mkParent x y, mkParent x y, pairUp mkParent l', by rw [hpair, List.append_assoc]; rfl,
            Or.inl rfl⟩
      · -- even count: the pair of the two final elements closes the level
        apply ih
        · omega
        · omega
        · omega
        · rcases List.eq_nil_or_concat (pairUp mkParent l') with hnil | ⟨B, b, hB⟩
          · exact absurd (by rw [← List.length_eq_zero] at hnil; omega) hk1
          · rw [List.concat_eq_append] at hB
            exact ⟨b, mkParent x y, B, by rw [hpair, hB, List.append_assoc]; rfl,
              Or.inr hlastEq⟩

/-- A tree containing an internal node with equal children renders to a
structure that is not a full binary tree. -/
theorem isFull_false_of_hasEq :
    ∀ t : MerkleNode, hasEqChildren t = true → isFull (get_tree_structure t) = false := by
  intro t
  induction t with
  | leaf h d => intro hfalse; simp [hasEqChildren] at hfalse
  | node h l r ihl ihr =>
    intro heq
    rw [get_tree_structure]
    by_cases hrl : r = l
    · rw [if_pos hrl]
      rfl
    · rw [if_neg hrl]
      simp only [hasEqChildren, Bool.or_eq_true, beq_iff_eq] at heq
      rcases heq with (heq | heq) | heq
      · exact absurd heq.symm hrl
      · rw [isFull, ihl heq]
        rfl
      · rw [isFull, ihr heq]
        simp

/-- C10: in the recursive structure view, an internal node whose two
children are equal as values is rendered with only a `left` key and no
`right` key; consequently, for every odd-length transaction list — whose
build necessarily duplicates a node — the returned structure is not a
full binary tree. -/
theorem get_tree_structure_odd_not_full :
    (∀ (h : String) (l r : MerkleNode), r = l →
      get_tree_structure (MerkleNode.node h l r)
        = TreeStruct.nodeS h (shortHash h) (get_tree_structure l) none) ∧
    (∀ L : List String, L.length % 2 = 1 →
      ∃ root, build_merkle_tree L = some root ∧ isFull (get_tree_structure root) = false) := by
  constructor
  · intro h l r hrl
    rw [get_tree_structure, if_pos hrl]
  · intro L hodd
    have hne : L ≠ [] := by
      intro hL; rw [hL] at hodd; simp at hodd
    have hisEmpty : ¬(L.isEmpty = true) := by
      cases L with
      | nil => exact absurd rfl hne
      | cons a as => simp
    obtain ⟨L'', a, hL⟩ : ∃ L'' a, L = L'' ++ [a] := by
      rcases List.eq_nil_or_concat L with hnil | ⟨B, b, hB⟩
      · exact absurd hnil hne
      · rw [List.concat_eq_append] at hB
        exact ⟨B, b, hB⟩
    have hLlen : L.length = L''.length + 1 := by
      rw [hL]; simp
    have hlast : L.getLast! = a := by rw [hL]; exact getLast_bang_concat a L''
    have hdup : dupIfOdd L = L'' ++ [a, a] := by
      rw [dupIfOdd, if_pos hodd, hlast, hL, List.append_assoc]
      rfl
    have hduplen : (dupIfOdd L).length = L''.length + 2 := by
      rw [hdup]
      simp only [List.length_append, List.length_cons, List.length_nil]
    obtain ⟨root, hbuild, hEq⟩ := buildLoopFuel_hasEq
      ((dupIfOdd L).map (fun tx => MerkleNode.leaf (sha256_hash tx) tx)).length
      ((dupIfOdd L).map (fun tx => MerkleNode.leaf (sha256_hash tx) tx))
      (by rw [List.length_map, hduplen]; omega)
      (by rw [List.length_map, hduplen]; omega)
      (by omega)
      (by
        refine ⟨MerkleNode.leaf (sha256_hash a) a, MerkleNode.leaf (sha256_hash a) a,
          L''.map (fun tx => MerkleNode.leaf (sha256_hash tx) tx), ?_, Or.inl rfl⟩
        rw [hdup, List.map_append]
        rfl)
    refine ⟨root, ?_, isFull_false_of_hasEq root hEq⟩
    rw [build_merkle_tree, if_neg hisEmpty]
    dsimp only
    rw [buildLoop, hbuild]

/-- C10 witness: a node with equal children rendered without a `right`
key, and the non-full structure of the singleton build `["x"]`. -/
theorem get_tree_structure_odd_not_full_witness :
    (MerkleNode.leaf "a" "t" = MerkleNode.leaf "a" "t" ∧
      get_tree_structure (MerkleNode.node "h" (MerkleNode.leaf "a" "t") (MerkleNode.leaf "a" "t"))
        = TreeStruct.nodeS "h" (shortHash "h")
            (get_tree_structure (MerkleNode.leaf "a" "t")) none) ∧
    (["x"].length % 2 = 1 ∧
      ∃ root, build_merkle_tree ["x"] = some root ∧ isFull (get_tree_structure root) = false) :=
  ⟨⟨rfl, get_tree_structure_odd_not_full.1 "h" (MerkleNode.leaf "a" "t")
      (MerkleNode.leaf "a" "t") rfl⟩,
   ⟨by decide, get_tree_structure_odd_not_full.2 ["x"] (by decide)⟩⟩

/-! ### Lemmas on chains, tampering and validation (for C3) -/

/-- `getD` after an in-range `set` at the same index. -/
theorem getD_set_self {α : Type} :
    ∀ (l : List α) (i : Nat) (a d : α), i < l.length → (l.set i a).getD i d = a
  | [], i, _, _, h => absurd h (by simp)
  | _ :: _, 0, _, _, _ => rfl
  | _ :: t, i + 1, a, d, h => getD_set_self t i a d (by simpa using h)

/-- `getD` after a `set` at a different index. -/
theorem getD_set_ne {α : Type} :
    ∀ (l : List α) (i j : Nat) (a d : α), i ≠ j → (l.set i a).getD j d = l.getD j d
  | [], _, _, _, _, _ => rfl
  | _ :: _, 0, 0, _, _, h => absurd rfl h
  | _ :: _, 0, _ + 1, _, _, _ => rfl
  | _ :: _, _ + 1, 0, _, _, _ => rfl
  | _ :: t, i + 1, j + 1, a, d, h => getD_set_ne t i j a d (by omega)

/-- `getD` inside the left part of an append. -/
theorem getD_append_lt {α : Type} :
    ∀ (l l' : List α) (j : Nat) (d : α), j < l.length → (l ++ l').getD j d = l.getD j d
  | [], _, j, _, h => absurd h (by simp)
  | _ :: _, _, 0, _, _ => rfl
  | _ :: t, l', j + 1, d, h => getD_append_lt t l' j d (by simpa using h)

/-- `getD` at the first position after the left part of an append. -/
theorem getD_append_len {α : Type} :
    ∀ (l : List α) (b : α) (l' : List α) (d : α), (l ++ b :: l').getD l.length d = b
  | [], _, _, _ => rfl
  | _ :: t, b, l', d => getD_append_len t b l' d

/-- The unchecked last element of a non-empty list as a `getD`. -/
theorem getLast_bang_eq_getD {α : Type} [Inhabited α] :
    ∀ l : List α, l ≠ [] → l.getLast! = l.getD (l.length - 1) default
  | [], h => absurd rfl h
  | [_], _ => rfl
  | x :: y :: rest, _ => by
    have h1 : (x :: y :: rest).getLast! = (y :: rest).getLast! := rfl
    have h2 : (x :: y :: rest).getD ((x :: y :: rest).length - 1) default
        = (y :: rest).getD ((y :: rest).length - 1) default := rfl
    rw [h1, h2]
    exact getLast_bang_eq_getD (y :: rest) (by simp)

/-- A flat map all of whose pieces are empty is empty. -/
theorem flatMap_eq_nil {α β : Type} :
    ∀ (l : List α) (g : α → List β), (∀ x ∈ l, g x = []) → l.flatMap g = []
  | [], _, _ => rfl
  | a :: t, g, h => by
    rw [List.flatMap_cons, h a (by simp), List.nil_append]
    exact flatMap_eq_nil t g (fun x hx => h x (by simp [hx]))

/-- A flat map over a duplicate-free list all of whose pieces vanish except
the one at `i` equals that piece. -/
theorem flatMap_eq_single {α β : Type} [DecidableEq α] :
    ∀ (l : List α) (i : α) (g : α → List β) (v : List β),
      l.Nodup → i ∈ l → (∀ x ∈ l, g x = if x = i then v else []) → l.flatMap g = v
  | [], _, _, _, _, hmem, _ => absurd hmem (by simp)
  | a :: t, i, g, v, hnd, hmem, hg => by
    rw [List.flatMap_cons]
    by_cases hai : a = i
    · rw [hg a (by simp), if_pos hai]
      have ht : t.flatMap g = [] := by
        apply flatMap_eq_nil
        intro x hx
        rw [hg x (by simp [hx]), if_neg]
        intro hxi
        exact (List.nodup_cons.1 hnd).1 (by rw [hai, ← hxi]; exact hx)
      rw [ht, List.append_nil]
    · rw [hg a (by simp), if_neg hai, List.nil_append]
      refine flatMap_eq_single t i g v (List.nodup_cons.1 hnd).2 ?_
        (fun x hx => hg x (by simp [hx]))
      rcases List.mem_cons.1 hmem with h | h
      · exact absurd h.symm hai
      · exact h

/-- Every chain built by genesis plus appends is non-empty, stores the
recomputed hash in every block, and links every non-genesis block to its
predecessor's hash. -/
theorem chain_wf_aux :
    ∀ (adds : List (String × String)) (c : List Block),
      c ≠ [] →
      (∀ j : Nat, j < c.length →
        (c.getD j default).hash = Block.recomputeHash (c.getD j default)) →
      (∀ j : Nat, 1 ≤ j → j < c.length →
        (c.getD j default).previous_hash = (c.getD (j - 1) default).hash) →
      (adds.foldl (fun ch p => add_block ch p.1 p.2) c) ≠ [] ∧
      (∀ j : Nat, j < (adds.foldl (fun ch p => add_block ch p.1 p.2) c).length →
        ((adds.foldl (fun ch p => add_block ch p.1 p.2) c).getD j default).hash
          = Block.recomputeHash
              ((adds.foldl (fun ch p => add_block ch p.1 p.2) c).getD j default)) ∧
      (∀ j : Nat, 1 ≤ j → j < (adds.foldl (fun ch p => add_block ch p.1 p.2) c).length →
        ((adds.foldl (fun ch p => add_block ch p.1 p.2) c).getD j default).previous_hash
          = ((adds.foldl (fun ch p => add_block ch p.1 p.2) c).getD (j - 1) default).hash)
  | [], c, h1, h2, h3 => ⟨h1, h2, h3⟩
  | p :: rest, c, h1, h2, h3 => by
    rw [List.foldl_cons]
    apply chain_wf_aux rest
    · rw [add_block]
      simp
    · intro j hj
      rw [add_block] at hj
      rw [List.length_append, List.length_singleton] at hj
      by_cases hjc : j < c.length
      · rw [add_block, getD_append_lt _ _ _ _ hjc]
        exact h2 j hjc
      · have hj' : j = c.length := by omega
        subst hj'
        rw [add_block, getD_append_len]
        rfl
    · intro j hj1 hj2
      rw [add_block] at hj2
      rw [List.length_append, List.length_singleton] at hj2
      by_cases hjc : j < c.length
      · rw [add_block, getD_append_lt _ _ _ _ hjc, getD_append_lt _ _ _ _ (by omega)]
        exact h3 j hj1 hjc
      · have hj' : j = c.length := by omega
        subst hj'
        have hcpos : 0 < c.length := List.length_pos.2 h1
        rw [add_block, getD_append_len, getD_append_lt _ _ _ _ (by omega)]
        show c.getLast!.hash = (c.getD (c.length - 1) default).hash
        rw [getLast_bang_eq_getD c h1]

/-- The well-formedness facts for a chain built by genesis plus appends. -/
theorem build_chain_wf (ts0 : String) (adds : List (String × String)) :
    build_chain ts0 adds ≠ [] ∧
    (∀ j : Nat, j < (build_chain ts0 adds).length →
      ((build_chain ts0 adds).getD j default).hash
        = Block.recomputeHash ((build_chain ts0 adds).getD j default)) ∧
    (∀ j : Nat, 1 ≤ j → j < (build_chain ts0 adds).length →
      ((build_chain ts0 adds).getD j default).previous_hash
        = ((build_chain ts0 adds).getD (j - 1) default).hash) := by
  rw [build_chain]
  apply chain_wf_aux
  · simp
  · intro j hj
    have hj0 : j = 0 := by simpa using hj
    subst hj0
    rfl
  · intro j hj1 hj2
    simp at hj2
    omega

/-- Validation of a chain tampered at a non-genesis index `i` whose stored
hash no longer matches the recomputed one: exactly the hash-mismatch error
for block `i` is reported. -/
theorem tamper_spec_core (c : List Block) (i : Nat) (x : String)
    (hhash : ∀ j : Nat, j < c.length →
      (c.getD j default).hash = Block.recomputeHash (c.getD j default))
    (hlink : ∀ j : Nat, 1 ≤ j → j < c.length →
      (c.getD j default).previous_hash = (c.getD (j - 1) default).hash)
    (hi1 : 1 ≤ i) (hi2 : i < c.length)
    (hneq : Block.recomputeHash { c.getD i default with data := x }
      ≠ (c.getD i default).hash) :
    is_chain_valid (c.set i { c.getD i default with data := x })
      = ⟨false, [hashMismatchMsg i], c.length⟩ := by
  rw [is_chain_valid]
  dsimp only
  rw [List.length_set]
  have hpoint : ∀ j ∈ List.range' 1 (c.length - 1),
      blockErrors (c.set i { c.getD i default with data := x }) j
        = if j = i then [hashMismatchMsg i] else [] := by
    intro j hj
    obtain ⟨hj1, hj2⟩ := List.mem_range'_1.1 hj
    have hj2' : j < c.length := by omega
    by_cases hji : j = i
    · subst hji
      rw [if_pos rfl, blockErrors]
      dsimp only
      rw [getD_set_self c j _ default hj2',
        getD_set_ne c j (j - 1) _ default (by omega)]
      rw [if_pos (fun he => hneq he.symm), if_neg (not_ne_iff.2 (hlink j hj1 hj2')),
        List.append_nil]
    · rw [if_neg hji, blockErrors]
      dsimp only
      rw [getD_set_ne c i j _ default (fun he => hji he.symm)]
      have hprev_eq : ((c.set i { c.getD i default with data := x }).getD (j - 1) default).hash
          = (c.getD (j - 1) default).hash := by
        by_cases hji' : i = j - 1
        · rw [← hji', getD_set_self c i _ default (by omega)]
        · rw [getD_set_ne c i (j - 1) _ default hji']
      rw [hprev_eq]
      rw [if_neg (not_ne_iff.2 (hhash j hj2')), if_neg (not_ne_iff.2 (hlink j hj1 hj2')),
        List.append_nil]
  rw [flatMap_eq_single (List.range' 1 (c.length - 1)) i _ _ (List.nodup_range' 1 _)
    (List.mem_range'_1.2 ⟨hi1, by omega⟩) hpoint]
  rfl

/-- Validation of a chain tampered at the genesis index: the validation
loop starts at block 1 and never rechecks genesis, so no error at all is
reported. -/
theorem tamper_genesis_core (c : List Block) (x : String)
    (hne : c ≠ [])
    (hhash : ∀ j : Nat, j < c.length →
      (c.getD j default).hash = Block.recomputeHash (c.getD j default))
    (hlink : ∀ j : Nat, 1 ≤ j → j < c.length →
      (c.getD j default).previous_hash = (c.getD (j - 1) default).hash) :
    is_chain_valid (c.set 0 { c.getD 0 default with data := x })
      = ⟨true, [], c.length⟩ := by
  rw [is_chain_valid]
  dsimp only
  rw [List.length_set]
  have hpoint : ∀ j ∈ List.range' 1 (c.length - 1),
      blockErrors (c.set 0 { c.getD 0 default with data := x }) j = [] := by
    intro j hj
    obtain ⟨hj1, hj2⟩ := List.mem_range'_1.1 hj
    have hj2' : j < c.length := by omega
    rw [blockErrors]
    dsimp only
    rw [getD_set_ne c 0 j _ default (by omega)]
    have hprev_eq : ((c.set 0 { c.getD 0 default with data := x }).getD (j - 1) default).hash
        = (c.getD (j - 1) default).hash := by
      by_cases hj1' : j - 1 = 0
      · rw [hj1', getD_set_self c 0 _ default (by omega)]
      · rw [getD_set_ne c 0 (j - 1) _ default (by omega)]
    rw [hprev_eq]
    rw [if_neg (not_ne_iff.2 (hhash j hj2')), if_neg (not_ne_iff.2 (hlink j hj1 hj2')),
      List.append_nil]
  rw [flatMap_eq_nil _ _ hpoint]
  rfl

/-- C3 counterexample: tampering the genesis block (index 0 is in range
for `tamper_block`) goes completely undetected, because the validation
loop starts at block 1: `validate()` returns `valid = true` with no
errors, not a single `HashMismatch`. -/
theorem tamper_claim_counterexample :
    "X" ≠ GENESIS_DATA ∧
    (tamper_block (build_chain "1.0" [("2.0", "A")]) 0 "X").2
      = TamperResult.tampered 0 GENESIS_DATA "X" "数据已修改，但哈希未更新（模拟篡改）" ∧
    is_chain_valid (tamper_block (build_chain "1.0" [("2.0", "A")]) 0 "X").1
      = ⟨true, [], 2⟩ :=
  ⟨by decide, by decide, by decide⟩

/-- C3 amended: on a chain built by genesis plus appends, tampering a
block at an index `i ≥ 1` so that its stored hash no longer matches its
recomputed hash (which any change of payload guarantees absent a SHA-256
collision) makes `validate()` report exactly one error, the
`HashMismatch` for block `i`, and no `LinkViolation` for any block;
tampering the genesis block (index 0) is never detected, since the
validation loop starts at block 1. -/
theorem tamper_then_validate (ts0 : String) (adds : List (String × String)) (x : String) :
    (∀ i : Nat, 1 ≤ i → i < (build_chain ts0 adds).length →
      Block.recomputeHash { (build_chain ts0 adds).getD i default with data := x }
          ≠ ((build_chain ts0 adds).getD i default).hash →
      is_chain_valid (tamper_block (build_chain ts0 adds) (i : Int) x).1
        = ⟨false, [hashMismatchMsg i], (build_chain ts0 adds).length⟩) ∧
    is_chain_valid (tamper_block (build_chain ts0 adds) 0 x).1
      = ⟨true, [], (build_chain ts0 adds).length⟩ := by
  obtain ⟨hne, hhash, hlink⟩ := build_chain_wf ts0 adds
  constructor
  · intro i hi1 hi2 hneq
    have hcond : ¬((i : Int) < 0 ∨ ((build_chain ts0 adds).length : Int) ≤ (i : Int)) := by
      push_neg
      exact ⟨Int.natCast_nonneg i, by exact_mod_cast hi2⟩
    rw [tamper_block, if_neg hcond]
    dsimp only
    rw [Int.toNat_natCast]
    exact tamper_spec_core _ i x hhash hlink hi1 hi2 hneq
  · have hlen0 : 0 < (build_chain ts0 adds).length := List.length_pos.2 hne
    have hcond : ¬((0 : Int) < 0 ∨ ((build_chain ts0 adds).length : Int) ≤ (0 : Int)) := by
      push_neg
      exact ⟨le_refl 0, by exact_mod_cast hlen0⟩
    rw [tamper_block, if_neg hcond]
    dsimp only
    exact tamper_genesis_core _ x hne hhash hlink

/-- C3 amended witness: on the concrete two-block chain, tampering block 1
with "evil" yields exactly the one hash-mismatch error for block 1. -/
theorem tamper_then_validate_witness :
    (1 ≤ 1 ∧ 1 < (build_chain "1.0" [("2.0", "A")]).length ∧
      Block.recomputeHash { (build_chain "1.0" [("2.0", "A")]).getD 1 default with data := "evil" }
        ≠ ((build_chain "1.0" [("2.0", "A")]).getD 1 default).hash) ∧
    is_chain_valid (tamper_block (build_chain "1.0" [("2.0", "A")]) ((1 : Nat) : Int) "evil").1
      = ⟨false, [hashMismatchMsg 1], (build_chain "1.0" [("2.0", "A")]).length⟩ :=
  ⟨⟨le_refl 1, by decide, by decide⟩,
   (tamper_then_validate "1.0" [("2.0", "A")] "evil").1 1 (le_refl 1) (by decide) (by decide)⟩

end BlockchainLab
